import Mathlib

/-!
Verification of the federated Slack search / thread-reconstruction engine
(`src/services/slackService.ts`) against its natural-language specification.

The TypeScript service is shallowly embedded: each record that flows through
`searchMessages` becomes a `RawMatch`, the JS `Map`-based deduplication becomes
`jsDedupBy` (last value wins, first-occurrence order), the thread-fetch network
calls become an oracle function, and `parseFloat` on Slack timestamps becomes an
exact decimal parse into `ℚ`.
-/

namespace SlackPast

/-- One upstream search hit / thread message, mirroring the fields of the JSON
objects that `searchMessages` inspects: `permalink`, `ts`, `channel.id`,
optional `thread_ts`, optional `reply_count`. -/
structure RawMatch where
  permalink : String
  ts : String
  channel : String
  thread_ts : Option String
  reply_count : Option Nat
deriving DecidableEq

/-- Value of a list of decimal digit characters. -/
def natOfDigits (l : List Char) : Nat :=
  l.foldl (fun a c => a * 10 + (c.toNat - 48)) 0

/-- `parseFloat` on a Slack timestamp string `"<seconds>.<fraction>"`,
as an exact rational: integer part plus fraction scaled by its length. -/
def parseTs (s : String) : ℚ :=
  let chars := s.toList
  let intPart := chars.takeWhile (fun c => c ≠ '.')
  let fracPart := (chars.dropWhile (fun c => c ≠ '.')).drop 1
  (natOfDigits intPart : ℚ) + (natOfDigits fracPart : ℚ) / (10 ^ fracPart.length)

/-- The parsed timestamp as an exact numerator/denominator pair of naturals
(`value = num / 10 ^ fracDigits`).  Kept in `Nat` so that comparisons reduce
inside the kernel. -/
def parseTsND (s : String) : Nat × Nat :=
  let chars := s.toList
  let intPart := chars.takeWhile (fun c => c ≠ '.')
  let fracPart := (chars.dropWhile (fun c => c ≠ '.')).drop 1
  (natOfDigits intPart * 10 ^ fracPart.length + natOfDigits fracPart,
    10 ^ fracPart.length)

/-- "Timestamp string `x` is at most timestamp string `y` as real numbers",
by cross-multiplication of the exact fractions. -/
def tsStrLe (x y : String) : Prop :=
  (parseTsND x).1 * (parseTsND y).2 ≤ (parseTsND y).1 * (parseTsND x).2

instance : DecidableRel tsStrLe :=
  fun x y => inferInstanceAs (Decidable (_ ≤ _))

theorem parseTs_eq_div (s : String) :
    parseTs s = ((parseTsND s).1 : ℚ) / ((parseTsND s).2 : ℚ) := by
  unfold parseTs parseTsND
  push_cast
  field_simp

/-- The cross-multiplied `Nat` comparison is exactly the real-number comparison
of the parsed timestamps. -/
theorem tsStrLe_iff (x y : String) : tsStrLe x y ↔ parseTs x ≤ parseTs y := by
  unfold tsStrLe
  rw [parseTs_eq_div, parseTs_eq_div]
  have hx : (0 : ℚ) < ((parseTsND x).2 : ℚ) := by
    unfold parseTsND
    push_cast
    positivity
  have hy : (0 : ℚ) < ((parseTsND y).2 : ℚ) := by
    unfold parseTsND
    push_cast
    positivity
  rw [div_le_div_iff hx hy]
  exact (@Nat.cast_le ℚ _ _ _).symm.trans (by push_cast; exact Iff.rfl)

/-- The comparator `(a, b) => parseFloat(a.ts) - parseFloat(b.ts)` used by the
code's two `.sort` calls, as the "less or equal" relation it induces. -/
def tsR (a b : RawMatch) : Prop := tsStrLe a.ts b.ts

instance : DecidableRel tsR := fun a b => inferInstanceAs (Decidable (tsStrLe _ _))

theorem tsR_iff (a b : RawMatch) : tsR a b ↔ parseTs a.ts ≤ parseTs b.ts :=
  tsStrLe_iff a.ts b.ts

instance : IsTotal RawMatch tsR :=
  ⟨fun a b => by
    rcases le_total (parseTs a.ts) (parseTs b.ts) with h | h
    · exact Or.inl ((tsR_iff a b).mpr h)
    · exact Or.inr ((tsR_iff b a).mpr h)⟩

instance : IsTrans RawMatch tsR :=
  ⟨fun a b c hab hbc => (tsR_iff a c).mpr
    (le_trans ((tsR_iff a b).mp hab) ((tsR_iff b c).mp hbc))⟩

/-- `threadMessages.sort((a, b) => parseFloat(a.ts) - parseFloat(b.ts))`:
a stable sort by the comparator, as JS `Array.prototype.sort` is. -/
def sortByTs (l : List RawMatch) : List RawMatch := l.insertionSort tsR

/-- `msg.thread_ts || msg.ts`: the key a message is grouped under. -/
def threadKey (m : RawMatch) : String := m.thread_ts.getD m.ts

/-- One `map.set(key x, x)` step of building a JS `Map` from entries:
if the key is already present its value is replaced in place, otherwise the
entry is appended. -/
def upsert {α κ : Type} [DecidableEq κ] (key : α → κ) (acc : List α) (x : α) : List α :=
  if acc.any (fun y => decide (key y = key x)) then
    acc.map (fun y => if key y = key x then x else y)
  else acc ++ [x]

/-- `Array.from(new Map(l.map(x => [key x, x])).values())`: deduplicate by
`key`, keeping for each key the last value, at the position of the key's first
occurrence. -/
def jsDedupBy {α κ : Type} [DecidableEq κ] (key : α → κ) (l : List α) : List α :=
  l.foldl (upsert key) []

theorem jsDedupBy_append_singleton {α κ : Type} [DecidableEq κ] (key : α → κ)
    (l : List α) (a : α) :
    jsDedupBy key (l ++ [a]) = upsert key (jsDedupBy key l) a := by
  simp [jsDedupBy]

/-- Characterization of JS `Map`-style dedup: `m` is in the output exactly
when `m` is the last input element bearing its key. -/
theorem mem_jsDedupBy {α κ : Type} [DecidableEq κ] (key : α → κ)
    (l : List α) (m : α) :
    m ∈ jsDedupBy key l ↔ l.reverse.find? (fun x => decide (key x = key m)) = some m := by
  induction l using List.reverseRecOn with
  | nil => simp [jsDedupBy]
  | append_singleton l a ih =>
    rw [jsDedupBy_append_singleton, List.reverse_append]
    simp only [List.reverse_singleton, List.singleton_append]
    unfold upsert
    by_cases hma : key a = key m
    · rw [@List.find?_cons_of_pos _ (fun x => decide (key x = key m)) a l.reverse
        (decide_eq_true hma)]
      by_cases hk : (jsDedupBy key l).any (fun y => decide (key y = key a)) = true
      · rw [if_pos hk]
        constructor
        · intro hm
          rcases List.mem_map.mp hm with ⟨y, hy, hmap⟩
          by_cases hya : key y = key a
          · simp only [hya, if_true] at hmap; rw [hmap]
          · simp only [hya, if_false] at hmap
            subst hmap
            exact absurd hma.symm hya
        · intro hm
          rcases List.any_eq_true.mp hk with ⟨z, hz, hza⟩
          have hza' : key z = key a := of_decide_eq_true hza
          have : a ∈ (jsDedupBy key l).map (fun y => if key y = key a then a else y) :=
            List.mem_map.mpr ⟨z, hz, by simp [hza']⟩
          rw [← Option.some_inj.mp hm]
          exact this
      · rw [if_neg hk]
        constructor
        · intro hm
          rcases List.mem_append.mp hm with hm | hm
          · exact absurd (List.any_eq_true.mpr ⟨m, hm, by simp [hma]⟩) hk
          · rw [List.mem_singleton.mp hm]
        · intro hm
          rw [← Option.some_inj.mp hm]
          simp
    · rw [@List.find?_cons_of_neg _ (fun x => decide (key x = key m)) a l.reverse
        (by simpa using hma)]
      by_cases hk : (jsDedupBy key l).any (fun y => decide (key y = key a)) = true
      · rw [if_pos hk, ← ih]
        constructor
        · intro hm
          rcases List.mem_map.mp hm with ⟨y, hy, hmap⟩
          by_cases hya : key y = key a
          · simp only [hya, if_true] at hmap
            exact absurd (hmap ▸ rfl : key a = key m) hma
          · simp only [hya, if_false] at hmap
            exact hmap ▸ hy
        · intro hm
          have hkm : key m ≠ key a := fun h => hma h.symm
          exact List.mem_map.mpr ⟨m, hm, by simp [hkm]⟩
      · rw [if_neg hk, ← ih]
        constructor
        · intro hm
          rcases List.mem_append.mp hm with hm | hm
          · exact hm
          · exact absurd ((List.mem_singleton.mp hm) ▸ rfl : key a = key m) hma
        · intro hm
          exact List.mem_append.mpr (Or.inl hm)

/-- The keys of a JS map-dedup output are distinct. -/
theorem nodup_keys_jsDedupBy {α κ : Type} [DecidableEq κ] (key : α → κ)
    (l : List α) : ((jsDedupBy key l).map key).Nodup := by
  induction l using List.reverseRecOn with
  | nil => simp [jsDedupBy]
  | append_singleton l a ih =>
    rw [jsDedupBy_append_singleton]
    unfold upsert
    by_cases hk : (jsDedupBy key l).any (fun y => decide (key y = key a)) = true
    · rw [if_pos hk]
      have : ((jsDedupBy key l).map (fun y => if key y = key a then a else y)).map key
          = (jsDedupBy key l).map key := by
        rw [List.map_map]
        apply List.map_congr_left
        intro y _
        by_cases hya : key y = key a
        · simp [hya]
        · simp [hya]
      rw [this]
      exact ih
    · rw [if_neg hk]
      simp only [List.map_append, List.map_singleton]
      rw [List.nodup_append]
      refine ⟨ih, List.nodup_singleton _, ?_⟩
      intro k hkmem hkmem'
      rcases List.mem_map.mp hkmem with ⟨y, hy, rfl⟩
      rcases List.mem_singleton.mp hkmem' with h
      exact hk (List.any_eq_true.mpr ⟨y, hy, by simp [h]⟩)

/-- Every output element of `jsDedupBy` is an input element. -/
theorem jsDedupBy_subset {α κ : Type} [DecidableEq κ] (key : α → κ)
    (l : List α) (m : α) (hm : m ∈ jsDedupBy key l) : m ∈ l := by
  rw [mem_jsDedupBy] at hm
  have := List.mem_of_find?_eq_some hm
  exact List.mem_reverse.mp this

/-- A key occurs in the dedup output exactly when some input element bears it. -/
theorem exists_key_jsDedupBy {α κ : Type} [DecidableEq κ] (key : α → κ)
    (l : List α) (k : κ) :
    (∃ m ∈ jsDedupBy key l, key m = k) ↔ ∃ m ∈ l, key m = k := by
  constructor
  · rintro ⟨m, hm, rfl⟩
    exact ⟨m, jsDedupBy_subset key l m hm, rfl⟩
  · rintro ⟨m, hm, rfl⟩
    have hsome : (l.reverse.find? (fun x => decide (key x = key m))).isSome := by
      rw [List.find?_isSome]
      exact ⟨m, List.mem_reverse.mpr hm, by simp⟩
    rcases Option.isSome_iff_exists.mp hsome with ⟨m', hm'⟩
    have hp := List.find?_some hm'
    have hkm' : key m' = key m := of_decide_eq_true hp
    refine ⟨m', ?_, hkm'⟩
    rw [mem_jsDedupBy]
    have : (fun x => decide (key x = key m')) = (fun x => decide (key x = key m)) := by
      funext x; rw [hkm']
    rw [this]
    exact hm'

/-- The dedup output itself has no duplicate elements. -/
theorem nodup_jsDedupBy {α κ : Type} [DecidableEq κ] (key : α → κ)
    (l : List α) : (jsDedupBy key l).Nodup :=
  (nodup_keys_jsDedupBy key l).of_map

/-- Two dedup-output elements with the same key are the same element. -/
theorem jsDedupBy_key_inj {α κ : Type} [DecidableEq κ] (key : α → κ)
    (l : List α) (m m' : α) (hm : m ∈ jsDedupBy key l) (hm' : m' ∈ jsDedupBy key l)
    (hk : key m = key m') : m = m' := by
  rw [mem_jsDedupBy] at hm hm'
  have : (fun x => decide (key x = key m')) = (fun x => decide (key x = key m)) := by
    funext x; rw [hk]
  rw [this] at hm'
  exact Option.some_inj.mp (hm.symm.trans hm')

/-- If a dedup-output element of `l₁ ++ l₂` shares its key with some element of
`l₂`, the surviving element itself lies in `l₂` (later occurrences win). -/
theorem jsDedupBy_mem_right {α κ : Type} [DecidableEq κ] (key : α → κ)
    (l₁ l₂ : List α) (m : α) (hm : m ∈ jsDedupBy key (l₁ ++ l₂))
    (hex : ∃ m0 ∈ l₂, key m0 = key m) : m ∈ l₂ := by
  rw [mem_jsDedupBy, List.reverse_append, List.find?_append] at hm
  rcases hex with ⟨m0, hm0, hk0⟩
  have hsome : (l₂.reverse.find? (fun x => decide (key x = key m))).isSome := by
    rw [List.find?_isSome]
    exact ⟨m0, List.mem_reverse.mpr hm0, by simp [hk0]⟩
  rw [Option.or_of_isSome hsome] at hm
  exact List.mem_reverse.mp (List.mem_of_find?_eq_some hm)

/-- One step of `threads.get(threadKey)!.push(msg)` / `threads.set(threadKey, [])`:
append `m` to its key's group, or open a new group. -/
def addToGroup (f : RawMatch → String) (acc : List (String × List RawMatch))
    (m : RawMatch) : List (String × List RawMatch) :=
  if acc.any (fun p => decide (p.1 = f m)) then
    acc.map (fun p => if p.1 = f m then (p.1, p.2 ++ [m]) else p)
  else acc ++ [(f m, [m])]

/-- The `threads : Map<string, any[]>` grouping loop of `searchMessages`:
group the list by `f`, groups in first-occurrence order of their key, members
in list order. -/
def groupByKey (f : RawMatch → String) (l : List RawMatch) :
    List (String × List RawMatch) :=
  l.foldl (addToGroup f) []

theorem groupByKey_append_singleton (f : RawMatch → String) (l : List RawMatch)
    (a : RawMatch) :
    groupByKey f (l ++ [a]) = addToGroup f (groupByKey f l) a := by
  simp [groupByKey]

/-- Each group of `groupByKey` is exactly the sublist of the input bearing its
key, and a key has a group exactly when some input element bears it. -/
theorem groupByKey_spec (f : RawMatch → String) (l : List RawMatch) :
    (∀ p ∈ groupByKey f l, p.2 = l.filter (fun m => decide (f m = p.1)))
    ∧ (∀ k, (∃ p ∈ groupByKey f l, p.1 = k) ↔ ∃ m ∈ l, f m = k) := by
  induction l using List.reverseRecOn with
  | nil => simp [groupByKey]
  | append_singleton l a ih =>
    obtain ⟨ih1, ih2⟩ := ih
    rw [groupByKey_append_singleton]
    unfold addToGroup
    by_cases hk : (groupByKey f l).any (fun p => decide (p.1 = f a)) = true
    · rw [if_pos hk]
      constructor
      · intro p hp
        rcases List.mem_map.mp hp with ⟨q, hq, hmap⟩
        by_cases hqa : q.1 = f a
        · simp only [hqa, if_true] at hmap
          subst hmap
          rw [List.filter_append]
          simp only [List.filter_singleton]
          rw [ih1 q hq]
          simp [hqa]
        · simp only [hqa, if_false] at hmap
          subst hmap
          rw [List.filter_append]
          simp only [List.filter_singleton]
          have hqa2 : ¬ f a = q.1 := fun h => hqa h.symm
          simp only [decide_eq_false hqa2]
          rw [ih1 q hq]
          simp
      · intro k
        constructor
        · rintro ⟨p, hp, rfl⟩
          rcases List.mem_map.mp hp with ⟨q, hq, hmap⟩
          have hq1 : q.1 = p.1 := by
            by_cases hqa : q.1 = f a
            · simp only [hqa, if_true] at hmap; rw [← hmap]; exact hqa
            · simp only [hqa, if_false] at hmap; rw [hmap]
          rcases ih2 p.1 |>.mp ⟨q, hq, hq1⟩ with ⟨m, hm, hfm⟩
          exact ⟨m, by simp [hm], hfm⟩
        · rintro ⟨m, hm, rfl⟩
          rcases List.mem_append.mp hm with hm | hm
          · rcases ih2 (f m) |>.mpr ⟨m, hm, rfl⟩ with ⟨q, hq, hq1⟩
            by_cases hqa : q.1 = f a
            · exact ⟨(q.1, q.2 ++ [a]), List.mem_map.mpr ⟨q, hq, by simp [hqa]⟩, hq1⟩
            · exact ⟨q, List.mem_map.mpr ⟨q, hq, by simp [hqa]⟩, hq1⟩
          · have hma := List.mem_singleton.mp hm
            subst hma
            rcases List.any_eq_true.mp hk with ⟨q, hq, hqa⟩
            have hqa' : q.1 = f m := of_decide_eq_true hqa
            exact ⟨(q.1, q.2 ++ [m]), List.mem_map.mpr ⟨q, hq, by simp [hqa']⟩, hqa'⟩
    · rw [if_neg hk]
      constructor
      · intro p hp
        rcases List.mem_append.mp hp with hp | hp
        · have hpa : ¬ f a = p.1 := by
            intro h
            exact hk (List.any_eq_true.mpr ⟨p, hp, by simp [h.symm]⟩)
          rw [List.filter_append]
          simp only [List.filter_singleton, decide_eq_false hpa]
          rw [ih1 p hp]
          simp
        · rcases List.mem_singleton.mp hp with rfl
          rw [List.filter_append]
          simp only [List.filter_singleton, decide_eq_true (rfl : f a = f a)]
          have hempty : l.filter (fun m => decide (f m = f a)) = [] := by
            by_contra hne
            rcases List.exists_mem_of_ne_nil _ hne with ⟨m, hm⟩
            rcases List.mem_filter.mp hm with ⟨hml, hfm⟩
            have hfm' : f m = f a := of_decide_eq_true hfm
            rcases ih2 (f a) |>.mpr ⟨m, hml, hfm'⟩ with ⟨q, hq, hq1⟩
            exact hk (List.any_eq_true.mpr ⟨q, hq, by simp [hq1]⟩)
          rw [hempty]
          simp
      · intro k
        constructor
        · rintro ⟨p, hp, rfl⟩
          rcases List.mem_append.mp hp with hp | hp
          · rcases ih2 p.1 |>.mp ⟨p, hp, rfl⟩ with ⟨m, hm, hfm⟩
            exact ⟨m, by simp [hm], hfm⟩
          · rcases List.mem_singleton.mp hp with rfl
            exact ⟨a, by simp, rfl⟩
        · rintro ⟨m, hm, rfl⟩
          rcases List.mem_append.mp hm with hm | hm
          · rcases ih2 (f m) |>.mpr ⟨m, hm, rfl⟩ with ⟨q, hq, hq1⟩
            exact ⟨q, by simp [hq], hq1⟩
          · have hma := List.mem_singleton.mp hm
            subst hma
            exact ⟨(f m, [m]), by simp, rfl⟩

/-- One parent-with-replies conversation object: the parent message with its
`replies` array set. -/
structure Conversation where
  root : RawMatch
  replies : List RawMatch
deriving DecidableEq

/-- The comparator relation of the final `conversations.sort`, on parent
timestamps. -/
def convR (a b : Conversation) : Prop := tsStrLe a.root.ts b.root.ts

instance : DecidableRel convR := fun a b => inferInstanceAs (Decidable (tsStrLe _ _))

theorem convR_iff (a b : Conversation) :
    convR a b ↔ parseTs a.root.ts ≤ parseTs b.root.ts :=
  tsStrLe_iff a.root.ts b.root.ts

instance : IsTotal Conversation convR :=
  ⟨fun a b => by
    rcases le_total (parseTs a.root.ts) (parseTs b.root.ts) with h | h
    · exact Or.inl ((convR_iff a b).mpr h)
    · exact Or.inr ((convR_iff b a).mpr h)⟩

instance : IsTrans Conversation convR :=
  ⟨fun a b c hab hbc => (convR_iff a c).mpr
    (le_trans ((convR_iff a b).mp hab) ((convR_iff b c).mp hbc))⟩

/-- Turn one group into a conversation: sort by timestamp, earliest becomes the
parent, the remainder its replies (`parent.replies = threadMessages.slice(1)`). -/
def toConversation (g : String × List RawMatch) : Option Conversation :=
  match sortByTs g.2 with
  | [] => none
  | root :: rest => some ⟨root, rest⟩

/-- The body of the `uniqueMessages.forEach` that fills `threadTsToFetch`:
`thread_ts` present ⇒ entry `(thread_ts, channel)`; else `reply_count > 0` ⇒
entry `(ts, channel)`; else no entry. -/
def threadEntry (m : RawMatch) : Option (String × String) :=
  match m.thread_ts with
  | some t => some (t, m.channel)
  | none => if 0 < m.reply_count.getD 0 then some (m.ts, m.channel) else none

/-- The finished `threadTsToFetch : Map<string, string>`: per thread key the
channel of the last message that set it, keys in first-set order. -/
def collectThreadKeys (msgs : List RawMatch) : List (String × String) :=
  jsDedupBy Prod.fst (msgs.filterMap threadEntry)

/-- Outcome of one `conversations.replies` call as `searchMessages` observes
it: a message list, a non-abort failure (caught and degraded), or an abort
(re-thrown). -/
inductive FetchOutcome where
  | ok (msgs : List RawMatch)
  | failed
  | aborted
deriving DecidableEq

def isAborted : FetchOutcome → Bool
  | .aborted => true
  | _ => false

/-- `.then(data => data.messages || []).catch(err => ... return [])` for a
non-abort outcome. -/
def fetchedOrEmpty : FetchOutcome → List RawMatch
  | .ok msgs => msgs
  | _ => []

/-- `!msg.thread_ts && !(msg.reply_count > 0)`. -/
def isStandalone (m : RawMatch) : Bool :=
  m.thread_ts.isNone && decide (m.reply_count.getD 0 = 0)

/-- `Array.from(new Map(allSearchResults.map(msg => [msg.permalink, msg])).values())`. -/
def uniqueByPermalink (l : List RawMatch) : List RawMatch :=
  jsDedupBy RawMatch.permalink l

/-- `const fetchedThreads = (await Promise.all(threadFetchPromises)).flat()`
(in the non-abort case), with the `conversations.replies` network calls
abstracted as `oracle : threadTs → channelId → FetchOutcome`. -/
def fetchedThreads (oracle : String → String → FetchOutcome)
    (allSearchResults : List RawMatch) : List RawMatch :=
  ((collectThreadKeys (uniqueByPermalink allSearchResults)).map
    (fun e => fetchedOrEmpty (oracle e.1 e.2))).flatten

/-- `const standaloneMessages = uniqueMessages.filter(...)`. -/
def standaloneMessages (allSearchResults : List RawMatch) : List RawMatch :=
  (uniqueByPermalink allSearchResults).filter isStandalone

/-- `const finalUniqueMessages = Array.from(new Map(allMessages.map(msg =>
[msg.ts, msg])).values())` where `allMessages = [...standaloneMessages,
...fetchedThreads]`. -/
def finalUniqueMessages (oracle : String → String → FetchOutcome)
    (allSearchResults : List RawMatch) : List RawMatch :=
  jsDedupBy RawMatch.ts
    (standaloneMessages allSearchResults ++ fetchedThreads oracle allSearchResults)

/-- The grouping, per-thread sorting and final sort of `searchMessages`. -/
def conversationsOf (oracle : String → String → FetchOutcome)
    (allSearchResults : List RawMatch) : List Conversation :=
  ((groupByKey threadKey (finalUniqueMessages oracle allSearchResults)).filterMap
    toConversation).insertionSort convR

/-- The thread-resolution half of `searchMessages` (from `uniqueMessages`
onwards).  An `AbortError` in any thread fetch re-throws through
`Promise.all` and rejects the whole call (modelled as `Except.error ()`);
every other path builds the conversation list. -/
def reconstruct (oracle : String → String → FetchOutcome)
    (allSearchResults : List RawMatch) : Except Unit (List Conversation) :=
  if (collectThreadKeys (uniqueByPermalink allSearchResults)).any
      (fun e => isAborted (oracle e.1 e.2)) then
    Except.error ()
  else
    Except.ok (conversationsOf oracle allSearchResults)

/-! ### Structure lemmas for `reconstruct` -/

/-- `sortByTs` sorts ascending by the real value of the timestamp string. -/
theorem sortByTs_pairwise (l : List RawMatch) :
    (sortByTs l).Pairwise (fun a b => parseTs a.ts ≤ parseTs b.ts) :=
  (List.sorted_insertionSort tsR l).imp (fun h => (tsR_iff _ _).mp h)

/-- `sortByTs` permutes its input. -/
theorem sortByTs_perm (l : List RawMatch) : List.Perm (sortByTs l) l :=
  List.perm_insertionSort tsR l

/-- The final conversation sort is ascending by the parent's timestamp. -/
theorem sortConvs_pairwise (l : List Conversation) :
    (l.insertionSort convR).Pairwise (fun a b => parseTs a.root.ts ≤ parseTs b.root.ts) :=
  (List.sorted_insertionSort convR l).imp (fun h => (convR_iff _ _).mp h)

/-- A successful `reconstruct` returns exactly `conversationsOf`. -/
theorem reconstruct_ok {oracle : String → String → FetchOutcome}
    {msgs : List RawMatch} {convs : List Conversation}
    (h : reconstruct oracle msgs = Except.ok convs) :
    convs = conversationsOf oracle msgs := by
  unfold reconstruct at h
  by_cases hab : (collectThreadKeys (uniqueByPermalink msgs)).any
      (fun e => isAborted (oracle e.1 e.2)) = true
  · rw [if_pos hab] at h; cases h
  · rw [if_neg hab] at h; exact (Except.ok.inj h).symm

/-- What `toConversation` producing a conversation says about its group. -/
theorem toConversation_eq {g : String × List RawMatch} {conv : Conversation}
    (h : toConversation g = some conv) :
    sortByTs g.2 = conv.root :: conv.replies := by
  unfold toConversation at h
  cases hs : sortByTs g.2 with
  | nil => rw [hs] at h; cases h
  | cons r rest =>
    rw [hs] at h
    cases Option.some_inj.mp h
    rfl

/-- Membership in the produced conversation list comes from some group. -/
theorem mem_conversationsOf {oracle : String → String → FetchOutcome}
    {msgs : List RawMatch} {conv : Conversation} :
    conv ∈ conversationsOf oracle msgs ↔
      ∃ g ∈ groupByKey threadKey (finalUniqueMessages oracle msgs),
        toConversation g = some conv := by
  unfold conversationsOf
  rw [List.mem_insertionSort, List.mem_filterMap]

/-- Membership in the flattened fetch results. -/
theorem mem_fetchedThreads {oracle : String → String → FetchOutcome}
    {msgs : List RawMatch} {m : RawMatch} :
    m ∈ fetchedThreads oracle msgs ↔
      ∃ e ∈ collectThreadKeys (uniqueByPermalink msgs),
        ∃ ms, oracle e.1 e.2 = FetchOutcome.ok ms ∧ m ∈ ms := by
  unfold fetchedThreads
  rw [List.mem_flatten]
  constructor
  · rintro ⟨l, hl, hm⟩
    rcases List.mem_map.mp hl with ⟨e, he, rfl⟩
    cases ho : oracle e.1 e.2 with
    | ok ms =>
      rw [ho] at hm
      exact ⟨e, he, ms, ho, hm⟩
    | failed => rw [ho] at hm; cases hm
    | aborted => rw [ho] at hm; cases hm
  · rintro ⟨e, he, ms, ho, hm⟩
    exact ⟨fetchedOrEmpty (oracle e.1 e.2), List.mem_map.mpr ⟨e, he, rfl⟩,
      by rw [ho]; exact hm⟩

/-! ### Concrete fixtures used by counterexamples and witnesses -/

/-- A search hit that is a thread root (has replies) in channel `C`. -/
def mA : RawMatch := ⟨"pA", "1.0", "C", none, some 2⟩

/-- A second thread-root search hit in channel `C`. -/
def mB : RawMatch := ⟨"pB", "2.0", "C", none, some 1⟩

/-- Thread `1.0`'s parent as returned by `conversations.replies`. -/
def pA1 : RawMatch := ⟨"pA", "1.0", "C", some "1.0", some 2⟩

/-- Thread `1.0`'s only reply. -/
def pR1 : RawMatch := ⟨"pR1", "1.1", "C", some "1.0", none⟩

/-- Thread `2.0`'s parent as returned by `conversations.replies`. -/
def pB2 : RawMatch := ⟨"pB", "2.0", "C", some "2.0", some 1⟩

/-- Thread `2.0`'s only reply. -/
def pR2 : RawMatch := ⟨"pR2", "2.5", "C", some "2.0", none⟩

/-- A fetch oracle that serves thread `1.0` in channel `C` and fails (with a
non-abort error) on every other request — in particular on thread `2.0`. -/
def oracleW : String → String → FetchOutcome := fun k c =>
  if k = "1.0" then (if c = "C" then .ok [pA1, pR1] else .failed) else .failed

/-- A fetch oracle serving both thread `1.0` and thread `2.0` in channel `C`. -/
def oracle2W : String → String → FetchOutcome := fun k c =>
  if c = "C" then
    (if k = "1.0" then .ok [pA1, pR1]
     else if k = "2.0" then .ok [pB2, pR2]
     else .failed)
  else .failed

/-! ### Paginated search executor (`performSearch`) -/

/-- `data.messages.paging`. -/
structure Paging where
  pages : Nat
deriving DecidableEq

/-- `data.messages`; the source field `matches` is a Lean keyword and is
called `matchList` here. -/
structure MessagesField where
  matchList : Option (List RawMatch)
  paging : Option Paging
deriving DecidableEq

/-- One `search.messages` response as `performSearch` inspects it. -/
structure SearchResponse where
  messages : Option MessagesField
deriving DecidableEq

/-- The matches a page contributes to the accumulator (nothing when
`data.messages` or `.matches` is absent). -/
def matchesOf (r : SearchResponse) : List RawMatch :=
  match r.messages with
  | some mf => mf.matchList.getD []
  | none => []

/-- `hasMore = data.messages?.paging ? page < data.messages.paging.pages : false`. -/
def continueAfter (r : SearchResponse) (page : Nat) : Bool :=
  match r.messages with
  | some mf =>
    match mf.paging with
    | some pg => decide (page < pg.pages)
    | none => false
  | none => false

/-- The `while (hasMore)` loop of `performSearch`, over a page oracle, with
fuel to make the (in general unbounded) loop total.  Returns the accumulated
matches and the last page requested (= total number of requests, having
started at page 1); `none` means the fuel ran out. -/
def performSearchAux (oracle : Nat → SearchResponse) :
    Nat → Nat → List RawMatch → Option (List RawMatch × Nat)
  | 0, _, _ => none
  | fuel + 1, page, acc =>
    let data := oracle page
    let acc' :=
      match data.messages with
      | some mf =>
        match mf.matchList with
        | some ms => acc ++ ms
        | none => acc
      | none => acc
    if continueAfter data page then performSearchAux oracle fuel (page + 1) acc'
    else some (acc', page)

/-- `performSearch`: drive the search query across pages starting at page 1. -/
def performSearch (oracle : Nat → SearchResponse) (fuel : Nat) :
    Option (List RawMatch × Nat) :=
  performSearchAux oracle fuel 1 []

theorem performSearchAux_acc (oracle : Nat → SearchResponse) (page : Nat)
    (acc : List RawMatch) :
    (match (oracle page).messages with
      | some mf =>
        match mf.matchList with
        | some ms => acc ++ ms
        | none => acc
      | none => acc) = acc ++ matchesOf (oracle page) := by
  unfold matchesOf
  cases hm : (oracle page).messages with
  | none => simp
  | some mf => cases hml : mf.matchList <;> simp [hml]

/-- Trace characterization of the pagination loop: when it terminates it has
requested the consecutive pages `page, …, n`, the continuation condition held
on every page before the last and fails on the last, and the result is the
accumulator extended with each page's matches in page order. -/
theorem performSearchAux_spec (oracle : Nat → SearchResponse) :
    ∀ fuel page acc res n, performSearchAux oracle fuel page acc = some (res, n) →
      page ≤ n
      ∧ res = acc ++ ((List.range' page (n + 1 - page)).map
          (fun p => matchesOf (oracle p))).flatten
      ∧ continueAfter (oracle n) n = false
      ∧ ∀ p, page ≤ p → p < n → continueAfter (oracle p) p = true := by
  intro fuel
  induction fuel with
  | zero => intro page acc res n h; exact absurd h (by simp [performSearchAux])
  | succ fuel ih =>
    intro page acc res n h
    rw [performSearchAux] at h
    simp only [performSearchAux_acc] at h
    by_cases hc : continueAfter (oracle page) page = true
    · rw [if_pos hc] at h
      obtain ⟨h1, h2, h3, h4⟩ := ih (page + 1) (acc ++ matchesOf (oracle page)) res n h
      refine ⟨by omega, ?_, h3, ?_⟩
      · have hr : List.range' page (n + 1 - page)
            = page :: List.range' (page + 1) (n + 1 - (page + 1)) := by
          have : n + 1 - page = (n + 1 - (page + 1)) + 1 := by omega
          rw [this, List.range'_succ]
        rw [hr]
        simp only [List.map_cons, List.flatten_cons, h2]
        simp [List.append_assoc]
      · intro p hp1 hp2
        rcases Nat.eq_or_lt_of_le hp1 with rfl | hlt
        · exact hc
        · exact h4 p hlt hp2
    · rw [if_neg hc] at h
      obtain ⟨rfl, rfl⟩ : acc ++ matchesOf (oracle page) = res ∧ page = n := by
        have := Option.some_inj.mp h
        exact ⟨congrArg Prod.fst this, congrArg Prod.snd this⟩
      refine ⟨Nat.le_refl _, ?_, by simpa using hc, fun p hp1 hp2 => absurd (Nat.lt_of_le_of_lt hp1 hp2) (Nat.lt_irrefl _)⟩
      have : page + 1 - page = 1 := by omega
      rw [this]
      simp

/-! ### Resilient request client (`slackFetch`) -/

/-- One mocked HTTP response as `slackFetch` distinguishes them: a 429 with an
optional integer `Retry-After` header, a JSON body with its `ok` flag and a
payload, or a non-JSON body. -/
inductive MockResponse where
  | rateLimited (retryAfter : Option Nat)
  | json (ok : Bool) (payload : Nat)
  | nonJson
deriving DecidableEq

/-- How one `slackFetch` call resolves. -/
inductive FetchResult where
  | success (payload : Nat)
  | rateLimitedError
  | upstreamError
  | protocolError
  | fallbackError
  | noResponse
deriving DecidableEq

/-- The `while (retries > 0)` retry loop of `slackFetch`, fed a mocked response
sequence.  Returns the outcome, the number of request attempts issued, and the
list of backoff delays slept (in seconds, `Retry-After` defaulting to 1).
`noResponse` marks the mock running dry (a model artifact, unreachable in the
theorems below). -/
def slackFetchGo : Nat → List MockResponse → FetchResult × Nat × List Nat
  | 0, _ => (.fallbackError, 0, [])
  | _ + 1, [] => (.noResponse, 0, [])
  | retries + 1, r :: rest =>
    match r with
    | .rateLimited ra =>
      if retries = 0 then (.rateLimitedError, 1, [])
      else
        let d := ra.getD 1
        let res := slackFetchGo retries rest
        (res.1, res.2.1 + 1, d :: res.2.2)
    | .json true p => (.success p, 1, [])
    | .json false _ => (.upstreamError, 1, [])
    | .nonJson => (.protocolError, 1, [])

/-- `slackFetch` starts with `retries = 5`. -/
def slackFetch (rs : List MockResponse) : FetchResult × Nat × List Nat :=
  slackFetchGo 5 rs

theorem slackFetchGo_attempts_le (n : Nat) :
    ∀ rs : List MockResponse, (slackFetchGo n rs).2.1 ≤ n := by
  induction n with
  | zero => intro rs; simp [slackFetchGo]
  | succ n ih =>
    intro rs
    match rs with
    | [] => simp [slackFetchGo]
    | r :: rest =>
      match r with
      | .rateLimited ra =>
        by_cases hn : n = 0
        · subst hn; simp [slackFetchGo]
        · have := ih rest
          simp only [slackFetchGo, hn, if_false]
          omega
      | .json true p => simp [slackFetchGo]
      | .json false p => simp [slackFetchGo]
      | .nonJson => simp [slackFetchGo]

/-! ### Timed resilient request client, for cancellation behavior -/

/-- A mocked response together with the network round-trip duration of the
request that receives it (time in integral units). -/
structure TimedResponse where
  dur : ℤ
  resp : MockResponse
deriving DecidableEq

/-- Outcome of a timed `slackFetch` run; `aborted` is the `AbortError`
rejection of `fetch` when the abort signal has fired. -/
inductive TimedResult where
  | success (payload : Nat)
  | aborted
  | rateLimitedError
  | upstreamError
  | protocolError
  | fallbackError
  | noResponse
deriving DecidableEq

/-- Timed semantics of the `slackFetch` retry loop at current clock `t`:
`fetch(url, {signal})` rejects with `AbortError` at the moment the abort
signal fires if that happens before the response arrives (or at the call
itself if the signal already fired), while the backoff
`await new Promise(resolve => setTimeout(resolve, …))` is not wired to the
signal at all, so the clock always advances by the whole backoff delay. -/
def slackFetchTimedGo (cancelAt : Option ℤ) :
    Nat → ℤ → List TimedResponse → TimedResult × ℤ
  | 0, t, _ => (.fallbackError, t)
  | _ + 1, t, [] => (.noResponse, t)
  | retries + 1, t, r :: rest =>
    match cancelAt with
    | some c =>
      if c ≤ t then (.aborted, t)
      else if c < t + r.dur then (.aborted, c)
      else
        match r.resp with
        | .rateLimited ra =>
          if retries = 0 then (.rateLimitedError, t + r.dur)
          else slackFetchTimedGo cancelAt retries (t + r.dur + (ra.getD 1 : ℤ)) rest
        | .json true p => (.success p, t + r.dur)
        | .json false _ => (.upstreamError, t + r.dur)
        | .nonJson => (.protocolError, t + r.dur)
    | none =>
        match r.resp with
        | .rateLimited ra =>
          if retries = 0 then (.rateLimitedError, t + r.dur)
          else slackFetchTimedGo cancelAt retries (t + r.dur + (ra.getD 1 : ℤ)) rest
        | .json true p => (.success p, t + r.dur)
        | .json false _ => (.upstreamError, t + r.dur)
        | .nonJson => (.protocolError, t + r.dur)

/-- Timed `slackFetch`: clock starts at 0, `retries = 5`. -/
def slackFetchTimed (cancelAt : Option ℤ) (rs : List TimedResponse) :
    TimedResult × ℤ :=
  slackFetchTimedGo cancelAt 5 0 rs

/-! ### Query variation generator (`generateQueryVariations`) -/

/-- Whitespace characters for the split `/\s+/`. -/
def isWs (c : Char) : Bool :=
  c = ' ' || c = '\t' || c = '\n' || c = '\r' || c = '\x0b' || c = '\x0c'

/-- Accumulating splitter behind `keyword.split(/\s+/).filter(Boolean)`:
`cur` holds the current word's characters in reverse. -/
def wordsAux : List Char → List Char → List String
  | cur, [] => if cur.isEmpty then [] else [String.mk cur.reverse]
  | cur, c :: cs =>
    if isWs c then
      if cur.isEmpty then wordsAux [] cs
      else String.mk cur.reverse :: wordsAux [] cs
    else wordsAux (c :: cur) cs

/-- `keyword.split(/\s+/).filter(Boolean)`: the whitespace-separated words. -/
def splitWords (s : String) : List String := wordsAux [] s.toList

/-- The inner `for (j …)` loop of `generateQueryVariations`: starting from
position `j`, append each following word, preceded by a space when bit `j` of
the mask `i` is set. -/
def buildVarAux (i : Nat) : Nat → List String → String
  | _, [] => ""
  | j, w :: ws => (if (i >>> j) % 2 = 1 then " " ++ w else w) ++ buildVarAux i (j + 1) ws

/-- `Array.from(new Set(…))`: JS `Set` insertion keeps the first occurrence. -/
def jsSetDedup (l : List String) : List String :=
  l.foldl (fun acc x => if x ∈ acc then acc else acc ++ [x]) []

/-- `generateQueryVariations`: at most one word returns `[keyword]` unchanged,
otherwise all `2^(words.length - 1)` bitmask spacing variations, collected
into a `Set`. -/
def generateQueryVariations (keyword : String) : List String :=
  let words := splitWords keyword
  if words.length ≤ 1 then [keyword]
  else
    match words with
    | [] => [keyword]
    | w0 :: rest =>
      jsSetDedup ((List.range (2 ^ (words.length - 1))).map
        (fun i => w0 ++ buildVarAux i 0 rest))

/-- Concatenation of a list of strings. -/
def joinStrings : List String → String
  | [] => ""
  | s :: rest => s ++ joinStrings rest

/-- The claim's independent description of spacing permutation `i` of the word
list `w0 :: rest`: bit `j` of `i` set means a space is inserted between word
`j` and word `j + 1`, unset means they are concatenated directly. -/
def specVariation (w0 : String) (rest : List String) (i : Nat) : String :=
  w0 ++ joinStrings (rest.enum.map (fun jw => (if i.testBit jw.1 then " " else "") ++ jw.2))

theorem jsSetDedup_append_singleton (l : List String) (a : String) :
    jsSetDedup (l ++ [a])
      = if a ∈ jsSetDedup l then jsSetDedup l else jsSetDedup l ++ [a] := by
  simp [jsSetDedup]

/-- JS `Set` dedup preserves membership. -/
theorem mem_jsSetDedup (l : List String) (x : String) :
    x ∈ jsSetDedup l ↔ x ∈ l := by
  induction l using List.reverseRecOn with
  | nil => simp [jsSetDedup]
  | append_singleton l a ih =>
    rw [jsSetDedup_append_singleton]
    by_cases ha : a ∈ jsSetDedup l
    · rw [if_pos ha]
      constructor
      · intro hx; exact List.mem_append.mpr (Or.inl (ih.mp hx))
      · intro hx
        rcases List.mem_append.mp hx with hx | hx
        · exact ih.mpr hx
        · rcases List.mem_singleton.mp hx with rfl; exact ha
    · rw [if_neg ha]
      constructor
      · intro hx
        rcases List.mem_append.mp hx with hx | hx
        · exact List.mem_append.mpr (Or.inl (ih.mp hx))
        · exact List.mem_append.mpr (Or.inr hx)
      · intro hx
        rcases List.mem_append.mp hx with hx | hx
        · exact List.mem_append.mpr (Or.inl (ih.mpr hx))
        · exact List.mem_append.mpr (Or.inr hx)

/-- JS `Set` dedup output has no duplicates. -/
theorem nodup_jsSetDedup (l : List String) : (jsSetDedup l).Nodup := by
  induction l using List.reverseRecOn with
  | nil => simp [jsSetDedup]
  | append_singleton l a ih =>
    rw [jsSetDedup_append_singleton]
    by_cases ha : a ∈ jsSetDedup l
    · rw [if_pos ha]; exact ih
    · rw [if_neg ha]
      rw [List.nodup_append]
      exact ⟨ih, List.nodup_singleton _, fun x hx hx' =>
        ha ((List.mem_singleton.mp hx') ▸ hx)⟩

theorem length_jsSetDedup_le (l : List String) :
    (jsSetDedup l).length ≤ l.length := by
  induction l using List.reverseRecOn with
  | nil => simp [jsSetDedup]
  | append_singleton l a ih =>
    rw [jsSetDedup_append_singleton]
    by_cases ha : a ∈ jsSetDedup l
    · rw [if_pos ha]
      simp only [List.length_append, List.length_singleton]
      omega
    · rw [if_neg ha]
      simp only [List.length_append, List.length_singleton]
      omega

/-- The code's inner loop computes exactly the claim's per-bit formula. -/
theorem buildVarAux_eq_spec (i : Nat) :
    ∀ (ws : List String) (j : Nat),
      buildVarAux i j ws = joinStrings ((ws.enumFrom j).map
        (fun jw => (if i.testBit jw.1 then " " else "") ++ jw.2)) := by
  intro ws
  induction ws with
  | nil => intro j; simp [buildVarAux, joinStrings]
  | cons w ws ih =>
    intro j
    rw [buildVarAux, List.enumFrom_cons]
    simp only [List.map_cons, joinStrings]
    have hbit : ((i >>> j) % 2 = 1) ↔ i.testBit j = true := by
      rw [Nat.testBit_to_div_mod, Nat.shiftRight_eq_div_pow]
      simp
    rw [ih (j + 1)]
    by_cases hb : (i >>> j) % 2 = 1
    · rw [if_pos hb, if_pos (hbit.mp hb)]
    · rw [if_neg hb, if_neg (fun h => hb (hbit.mpr h))]
      rw [String.empty_append]

/-- The code's mask-`i` variation is the claim's `specVariation`. -/
theorem codeVariation_eq_spec (w0 : String) (rest : List String) (i : Nat) :
    w0 ++ buildVarAux i 0 rest = specVariation w0 rest i := by
  unfold specVariation
  rw [buildVarAux_eq_spec, List.enum]

/-! ### Claim theorems -/

/-- **C6**: for every response sequence `slackFetch` makes at most 5 request
attempts; five consecutive 429s exhaust the retries into the rate-limited
error after sleeping each of the first four server-supplied `Retry-After`
delays (1 second when the header is absent); and three consecutive 429s
followed by a success retry exactly three times with the server-specified
delays and then resolve with the successful payload on the fourth attempt. -/
theorem claim_C6 :
    (∀ rs : List MockResponse, (slackFetch rs).2.1 ≤ 5)
    ∧ (∀ a1 a2 a3 a4 a5 : Option Nat,
        slackFetch [MockResponse.rateLimited a1, MockResponse.rateLimited a2,
          MockResponse.rateLimited a3, MockResponse.rateLimited a4,
          MockResponse.rateLimited a5]
          = (FetchResult.rateLimitedError, 5,
              [a1.getD 1, a2.getD 1, a3.getD 1, a4.getD 1]))
    ∧ (∀ (a1 a2 a3 : Option Nat) (p : Nat) (rest : List MockResponse),
        slackFetch ([MockResponse.rateLimited a1, MockResponse.rateLimited a2,
          MockResponse.rateLimited a3, MockResponse.json true p] ++ rest)
          = (FetchResult.success p, 4, [a1.getD 1, a2.getD 1, a3.getD 1])) := by
  refine ⟨fun rs => slackFetchGo_attempts_le 5 rs, ?_, ?_⟩
  · intro a1 a2 a3 a4 a5
    simp [slackFetch, slackFetchGo]
  · intro a1 a2 a3 p rest
    simp [slackFetch, slackFetchGo]

/-- **C9**: the orchestrator's merged output keeps exactly one match per
distinct permalink: output permalinks are pairwise distinct, a match survives
exactly when it is the last arrival bearing its permalink (last-write-wins),
and of two matches sharing a permalink exactly the later one survives. -/
theorem claim_C9 (l : List RawMatch) :
    ((uniqueByPermalink l).map RawMatch.permalink).Nodup
    ∧ (∀ m : RawMatch, m ∈ uniqueByPermalink l ↔
        l.reverse.find? (fun x => decide (x.permalink = m.permalink)) = some m)
    ∧ (∀ m1 m2 : RawMatch, m1.permalink = m2.permalink →
        uniqueByPermalink [m1, m2] = [m2]) := by
  refine ⟨nodup_keys_jsDedupBy _ l, fun m => mem_jsDedupBy _ l m, ?_⟩
  intro m1 m2 h
  simp [uniqueByPermalink, jsDedupBy, upsert, h]

/-- A duplicate of `mA`'s permalink arriving later from another fan-out task. -/
def mA2 : RawMatch := ⟨"pA", "9.9", "D", none, none⟩

/-- Witness for C9's last-write-wins clause at a concrete duplicated
permalink. -/
theorem claim_C9_witness :
    mA.permalink = mA2.permalink ∧ uniqueByPermalink [mA, mA2] = [mA2] :=
  ⟨rfl, (claim_C9 [mA, mA2]).2.2 mA mA2 rfl⟩

/-- **C10**: a keyword with at most one whitespace-separated word — the empty
and whitespace-only strings included — yields the singleton list holding the
original keyword string verbatim; in particular the result is non-empty. -/
theorem claim_C10 (keyword : String) (h : (splitWords keyword).length ≤ 1) :
    generateQueryVariations keyword = [keyword] := by
  unfold generateQueryVariations
  rw [if_pos h]

/-- Witness for C10: the empty keyword and a whitespace-only keyword. -/
theorem claim_C10_witness :
    ((splitWords "").length ≤ 1 ∧ generateQueryVariations "" = [""])
    ∧ ((splitWords "  ").length ≤ 1 ∧ generateQueryVariations "  " = ["  "]) :=
  ⟨⟨by decide, claim_C10 "" (by decide)⟩, ⟨by decide, claim_C10 "  " (by decide)⟩⟩

/-- **C8**: for a multi-word keyword, `generateQueryVariations` returns the
deduplicated set of all `2^(words.length - 1)` spacing permutations, where bit
`j` of mask `i` set inserts a space between word `j` and word `j+1` and unset
concatenates them; consequently a 3-word keyword yields at most 4 distinct
strings.  (The at-most-one-word branch is claim C10.) -/
theorem claim_C8 (keyword w0 w1 : String) (rest : List String)
    (h : splitWords keyword = w0 :: w1 :: rest) :
    (generateQueryVariations keyword).Nodup
    ∧ (∀ v : String, v ∈ generateQueryVariations keyword ↔
        ∃ i < 2 ^ (w1 :: rest).length, v = specVariation w0 (w1 :: rest) i)
    ∧ ((splitWords keyword).length = 3 →
        (generateQueryVariations keyword).length ≤ 4) := by
  have hgen : generateQueryVariations keyword
      = jsSetDedup ((List.range (2 ^ (w1 :: rest).length)).map
          (fun i => w0 ++ buildVarAux i 0 (w1 :: rest))) := by
    unfold generateQueryVariations
    rw [h]
    simp
  refine ⟨hgen ▸ nodup_jsSetDedup _, ?_, ?_⟩
  · intro v
    rw [hgen, mem_jsSetDedup, List.mem_map]
    constructor
    · rintro ⟨i, hi, rfl⟩
      exact ⟨i, List.mem_range.mp hi, codeVariation_eq_spec w0 (w1 :: rest) i⟩
    · rintro ⟨i, hi, rfl⟩
      exact ⟨i, List.mem_range.mpr hi, codeVariation_eq_spec w0 (w1 :: rest) i⟩
  · intro h3
    rw [h] at h3
    simp only [List.length_cons] at h3
    have hr : rest.length = 1 := by omega
    rw [hgen]
    calc (jsSetDedup ((List.range (2 ^ (w1 :: rest).length)).map
            (fun i => w0 ++ buildVarAux i 0 (w1 :: rest)))).length
        ≤ ((List.range (2 ^ (w1 :: rest).length)).map
            (fun i => w0 ++ buildVarAux i 0 (w1 :: rest))).length :=
          length_jsSetDedup_le _
      _ = 2 ^ (w1 :: rest).length := by simp
      _ ≤ 4 := by simp [hr]

/-- Witness for C8 at the 3-word keyword `"a b c"`. -/
theorem claim_C8_witness :
    splitWords "a b c" = ["a", "b", "c"]
    ∧ ((generateQueryVariations "a b c").Nodup
      ∧ (∀ v : String, v ∈ generateQueryVariations "a b c" ↔
          ∃ i < 2 ^ (["b", "c"] : List String).length, v = specVariation "a" ["b", "c"] i)
      ∧ ((splitWords "a b c").length = 3 →
          (generateQueryVariations "a b c").length ≤ 4)) :=
  ⟨by decide, claim_C8 "a b c" "a" "b" ["c"] (by decide)⟩

/-- Page oracle refuting C3 as stated: every page answers `matches: []` while
`paging.pages = 3` still reports more pages. -/
def emptyPagesOracle : Nat → SearchResponse :=
  fun _ => ⟨some ⟨some [], some ⟨3⟩⟩⟩

/-- **C3 counterexample**: on a response whose first page returns no matches
but whose paging metadata reports 3 pages, the claim's stop condition ("stop
when a page returns no matches") demands exactly 1 page request, yet
`performSearch` keeps going and issues 3 requests. -/
theorem claim_C3_counterexample :
    performSearch emptyPagesOracle 10 = some ([], 3)
    ∧ (matchesOf (emptyPagesOracle 1) = [] ∧ (3 : Nat) ≠ 1) := by
  exact ⟨rfl, rfl, by decide⟩

/-- A mocked 3-page response sequence: page `p` serves the `p`-th match list
and reports `pages = 3`. -/
def threePageOracle (m1 m2 m3 : List RawMatch) : Nat → SearchResponse :=
  fun p => ⟨some ⟨some (if p = 1 then m1 else if p = 2 then m2 else m3), some ⟨3⟩⟩⟩

/-- **C3 (amended)**: `performSearch` starts at page 1 and requests
consecutive pages; it stops exactly when the continuation test fails — that
is, when the response carries paging metadata and the current page number has
reached the reported page count, or when the response carries no paging
metadata (`messages` or `paging` absent) — and an empty match list alone does
not stop it; the result is the concatenation of every requested page's
matches in page order; and a mocked 3-page sequence yields exactly 3 page
requests returning all three pages' matches concatenated. -/
theorem claim_C3 :
    (∀ (oracle : Nat → SearchResponse) (fuel : Nat) (res : List RawMatch) (n : Nat),
      performSearch oracle fuel = some (res, n) →
        1 ≤ n
        ∧ res = ((List.range' 1 n).map (fun p => matchesOf (oracle p))).flatten
        ∧ continueAfter (oracle n) n = false
        ∧ (∀ p, 1 ≤ p → p < n → continueAfter (oracle p) p = true))
    ∧ (∀ m1 m2 m3 : List RawMatch,
        performSearch (threePageOracle m1 m2 m3) 10 = some ((m1 ++ m2) ++ m3, 3)) := by
  constructor
  · intro oracle fuel res n h
    obtain ⟨h1, h2, h3, h4⟩ := performSearchAux_spec oracle fuel 1 [] res n h
    refine ⟨h1, ?_, h3, h4⟩
    simpa using h2
  · intro m1 m2 m3
    simp [performSearch, performSearchAux, threePageOracle, continueAfter]

/-- Witness for C3's amended pagination characterization on the concrete
empty-matches oracle. -/
theorem claim_C3_witness :
    performSearch emptyPagesOracle 10 = some ([], 3)
    ∧ (1 ≤ 3
      ∧ ([] : List RawMatch)
          = ((List.range' 1 3).map (fun p => matchesOf (emptyPagesOracle p))).flatten
      ∧ continueAfter (emptyPagesOracle 3) 3 = false
      ∧ (∀ p, 1 ≤ p → p < 3 → continueAfter (emptyPagesOracle p) p = true)) :=
  ⟨rfl, claim_C3.1 emptyPagesOracle 10 [] 3 rfl⟩

/-- Two thread-bearing matches sharing the thread key `"5.0"` but lying in
different channels. -/
def m5C1 : RawMatch := ⟨"p1", "6.0", "C1", some "5.0", none⟩

/-- See `m5C1`; same thread key, different channel, arrives later. -/
def m5C2 : RawMatch := ⟨"p2", "7.0", "C2", some "5.0", none⟩

/-- **C4 counterexample**: two thread-bearing matches sharing a `ThreadKey`
but lying in different channels produce a single planned thread fetch (keyed
by `thread_ts` alone, with the later match's channel), not one fetch per
`(ThreadKey, channelId)` pair as claimed. -/
theorem claim_C4_counterexample :
    collectThreadKeys (uniqueByPermalink [m5C1, m5C2]) = [("5.0", "C2")]
    ∧ (collectThreadKeys (uniqueByPermalink [m5C1, m5C2])).length ≠ 2 := by
  exact ⟨rfl, by decide⟩

/-- **C4 (amended)**: `searchMessages` plans exactly one thread fetch per
distinct `ThreadKey` among the thread-bearing matches (not per
`(ThreadKey, channelId)` pair): the planned keys are pairwise distinct, an
entry is planned exactly when it is the last thread-bearing match bearing that
key (so its channel is the last such match's channel), and a key is planned
exactly when some deduplicated match bears it through `threadEntry`. -/
theorem claim_C4 (msgs : List RawMatch) :
    ((collectThreadKeys (uniqueByPermalink msgs)).map Prod.fst).Nodup
    ∧ (∀ e : String × String, e ∈ collectThreadKeys (uniqueByPermalink msgs) ↔
        ((uniqueByPermalink msgs).filterMap threadEntry).reverse.find?
          (fun p => decide (p.1 = e.1)) = some e)
    ∧ (∀ k : String,
        (∃ e ∈ collectThreadKeys (uniqueByPermalink msgs), e.1 = k) ↔
        ∃ m ∈ uniqueByPermalink msgs, ∃ c : String, threadEntry m = some (k, c)) := by
  refine ⟨nodup_keys_jsDedupBy _ _, fun e => mem_jsDedupBy _ _ e, ?_⟩
  intro k
  unfold collectThreadKeys
  rw [exists_key_jsDedupBy]
  constructor
  · rintro ⟨p, hp, rfl⟩
    rcases List.mem_filterMap.mp hp with ⟨m, hm, hme⟩
    exact ⟨m, hm, p.2, by rw [hme]⟩
  · rintro ⟨m, hm, c, hme⟩
    exact ⟨(k, c), List.mem_filterMap.mpr ⟨m, hm, hme⟩, rfl⟩

/-- **C7 counterexample**: the cancellation signal fires at time 1, during the
10-unit backoff sleep that follows the first 429 (which resolved at time 0),
but the run only aborts at time 10 — after the entire backoff delay — because
the backoff sleep is not wired to the abort signal.  The claim's "aborts
immediately at that suspension point" demands an abort at time 1. -/
theorem claim_C7_counterexample :
    slackFetchTimed (some 1)
      [⟨0, MockResponse.rateLimited (some 10)⟩, ⟨0, MockResponse.json true 7⟩]
      = (TimedResult.aborted, 10)
    ∧ (1 : ℤ) ≠ 10 := by
  exact ⟨rfl, by decide⟩

/-- **C7 (amended)**: cancellation firing while a network call is outstanding
aborts that call at the moment the signal fires (or at the call itself when it
has already fired); but cancellation firing during a backoff sleep is not
observed during the sleep — the full backoff delay elapses and the abort only
surfaces when the next fetch attempt starts. -/
theorem claim_C7 :
    (∀ (c dur : ℤ) (r : MockResponse) (rest : List TimedResponse) (retries : Nat),
      0 ≤ c → c < dur →
      slackFetchTimedGo (some c) (retries + 1) 0 (⟨dur, r⟩ :: rest)
        = (TimedResult.aborted, c))
    ∧ (∀ (c : ℤ) (d : Nat) (r2 : MockResponse) (rest : List TimedResponse) (retries : Nat),
      0 < c → c < (d : ℤ) →
      slackFetchTimedGo (some c) (retries + 2) 0
          (⟨0, MockResponse.rateLimited (some d)⟩ :: ⟨0, r2⟩ :: rest)
        = (TimedResult.aborted, (d : ℤ))) := by
  constructor
  · intro c dur r rest retries hc hcd
    rw [slackFetchTimedGo]
    by_cases hc0 : c ≤ 0
    · have : c = 0 := le_antisymm hc0 hc
      subst this
      simp
    · rw [if_neg hc0]
      rw [if_pos (by omega : c < 0 + dur)]
  · intro c d r2 rest retries hc hcd
    rw [slackFetchTimedGo]
    rw [if_neg (by omega : ¬ c ≤ 0), if_neg (by omega : ¬ c < 0 + 0)]
    simp only [Option.getD]
    rw [slackFetchTimedGo]
    rw [if_pos (by omega : c ≤ 0 + 0 + (d : ℤ))]
    norm_num

/-- Witness for C7's amended cancellation behavior at concrete times. -/
theorem claim_C7_witness :
    ((0 : ℤ) ≤ 1 ∧ (1 : ℤ) < 2
      ∧ slackFetchTimedGo (some 1) 1 0 [⟨2, MockResponse.json true 0⟩]
          = (TimedResult.aborted, 1))
    ∧ ((0 : ℤ) < 1 ∧ (1 : ℤ) < (10 : Nat)
      ∧ slackFetchTimedGo (some 1) 2 0
          [⟨0, MockResponse.rateLimited (some 10)⟩, ⟨0, MockResponse.json true 7⟩]
          = (TimedResult.aborted, ((10 : Nat) : ℤ))) :=
  ⟨⟨by decide, by decide, claim_C7.1 1 2 (MockResponse.json true 0) [] 0 (by decide) (by decide)⟩,
   ⟨by decide, by decide, claim_C7.2 1 10 (MockResponse.json true 7) [] 0 (by decide) (by decide)⟩⟩

/-- **C1 counterexample**: with two thread roots found and the fetch of thread
`"2.0"` failing with a non-abort error, the call still resolves successfully
and the other thread is fully populated, but no conversation carries the
failed thread's root — the root is dropped, not kept with empty replies as
the claim states. -/
theorem claim_C1_counterexample :
    reconstruct oracleW [mA, mB] = Except.ok [⟨pA1, [pR1]⟩]
    ∧ oracleW mB.ts mB.channel = FetchOutcome.failed
    ∧ ∀ conv ∈ [Conversation.mk pA1 [pR1]],
        conv.root.ts ≠ mB.ts ∧ mB ∉ conv.root :: conv.replies := by
  refine ⟨rfl, rfl, ?_⟩
  decide

/-- Replace every non-abort fetch failure by an empty successful fetch. -/
def degradeFailed (oracle : String → String → FetchOutcome) :
    String → String → FetchOutcome := fun k c =>
  match oracle k c with
  | .failed => .ok []
  | o => o

/-- **C1 (amended)**: a thread-fetch failure that is not an abort never fails
the overall call — `reconstruct` errs exactly when some planned fetch aborts,
and a failed fetch is treated exactly as a successful fetch of the empty
message list.  Because the failed thread's root search hit is thread-bearing,
it is excluded from the standalone messages, so that thread is dropped from
the `ConversationSet` entirely rather than appearing with an empty `replies`
sequence; all other threads are unaffected, as the concrete two-thread run
shows. -/
theorem claim_C1 :
    (∀ (oracle : String → String → FetchOutcome) (msgs : List RawMatch),
      reconstruct oracle msgs = Except.error () ↔
        ∃ e ∈ collectThreadKeys (uniqueByPermalink msgs),
          isAborted (oracle e.1 e.2) = true)
    ∧ (∀ (oracle : String → String → FetchOutcome) (msgs : List RawMatch),
        reconstruct oracle msgs = reconstruct (degradeFailed oracle) msgs)
    ∧ (reconstruct oracleW [mA, mB] = Except.ok [⟨pA1, [pR1]⟩]
      ∧ ∀ conv ∈ [Conversation.mk pA1 [pR1]], conv.root.ts ≠ mB.ts) := by
  refine ⟨?_, ?_, rfl, by decide⟩
  · intro oracle msgs
    unfold reconstruct
    by_cases hab : (collectThreadKeys (uniqueByPermalink msgs)).any
        (fun e => isAborted (oracle e.1 e.2)) = true
    · rw [if_pos hab]
      constructor
      · intro _
        exact List.any_eq_true.mp hab
      · intro _
        rfl
    · rw [if_neg hab]
      constructor
      · intro hcontra
        exact absurd hcontra (by simp)
      · intro hex
        exact absurd (List.any_eq_true.mpr hex) hab
  · intro oracle msgs
    have habt : ∀ e : String × String,
        isAborted (degradeFailed oracle e.1 e.2) = isAborted (oracle e.1 e.2) := by
      intro e
      unfold degradeFailed
      cases oracle e.1 e.2 <;> rfl
    have hfe : ∀ e : String × String,
        fetchedOrEmpty (degradeFailed oracle e.1 e.2) = fetchedOrEmpty (oracle e.1 e.2) := by
      intro e
      unfold degradeFailed
      cases oracle e.1 e.2 <;> rfl
    have hany : ((collectThreadKeys (uniqueByPermalink msgs)).any
          (fun e => isAborted (degradeFailed oracle e.1 e.2)))
        = ((collectThreadKeys (uniqueByPermalink msgs)).any
          (fun e => isAborted (oracle e.1 e.2))) := by
      rw [Bool.eq_iff_iff]
      simp only [List.any_eq_true]
      constructor
      · rintro ⟨e, he, hp⟩
        exact ⟨e, he, (habt e) ▸ hp⟩
      · rintro ⟨e, he, hp⟩
        exact ⟨e, he, (habt e).symm ▸ hp⟩
    have hmap : ((collectThreadKeys (uniqueByPermalink msgs)).map
          (fun e => fetchedOrEmpty (degradeFailed oracle e.1 e.2)))
        = ((collectThreadKeys (uniqueByPermalink msgs)).map
          (fun e => fetchedOrEmpty (oracle e.1 e.2))) :=
      List.map_congr_left (fun e _ => hfe e)
    unfold reconstruct conversationsOf finalUniqueMessages fetchedThreads
    rw [hany, hmap]

/-- **C2**: every successfully produced conversation list is sorted ascending
by the root's timestamp, and within each conversation the replies are sorted
ascending by timestamp — timestamps compared as real numbers via `parseTs`,
not lexicographically. -/
theorem claim_C2 (oracle : String → String → FetchOutcome) (msgs : List RawMatch)
    (convs : List Conversation) (h : reconstruct oracle msgs = Except.ok convs) :
    convs.Pairwise (fun a b => parseTs a.root.ts ≤ parseTs b.root.ts)
    ∧ ∀ conv ∈ convs,
        conv.replies.Pairwise (fun a b => parseTs a.ts ≤ parseTs b.ts) := by
  have hc := reconstruct_ok h
  subst hc
  constructor
  · exact sortConvs_pairwise _
  · intro conv hconv
    rcases mem_conversationsOf.mp hconv with ⟨g, hg, hcv⟩
    have hsort := toConversation_eq hcv
    have hp := sortByTs_pairwise g.2
    rw [hsort] at hp
    exact (List.pairwise_cons.mp hp).2

/-- Witness for C2 at a concrete two-thread reconstruction. -/
theorem claim_C2_witness :
    reconstruct oracle2W [mA, mB]
      = Except.ok [⟨pA1, [pR1]⟩, ⟨pB2, [pR2]⟩]
    ∧ (([Conversation.mk pA1 [pR1], Conversation.mk pB2 [pR2]]).Pairwise
        (fun a b => parseTs a.root.ts ≤ parseTs b.root.ts)
      ∧ ∀ conv ∈ [Conversation.mk pA1 [pR1], Conversation.mk pB2 [pR2]],
          conv.replies.Pairwise (fun a b => parseTs a.ts ≤ parseTs b.ts)) :=
  ⟨rfl, claim_C2 oracle2W [mA, mB] _ rfl⟩

/-- Standalone survivors carry their own `ts` as thread key. -/
theorem standalone_threadKey {msgs : List RawMatch} {m : RawMatch}
    (hm : m ∈ standaloneMessages msgs) : threadKey m = m.ts := by
  unfold standaloneMessages at hm
  rcases List.mem_filter.mp hm with ⟨_, hs⟩
  unfold isStandalone at hs
  rcases Bool.and_eq_true_iff.mp hs with ⟨hnone, _⟩
  unfold threadKey
  cases ht : m.thread_ts with
  | none => rfl
  | some t => rw [ht] at hnone; cases hnone

/-- Channel agreement inside one thread key of the final deduplicated message
list, under the upstream thread-fetch contract. -/
theorem finalUnique_channel_eq (oracle : String → String → FetchOutcome)
    (msgs : List RawMatch)
    (hkey : ∀ k c ms, oracle k c = FetchOutcome.ok ms →
      ∀ m ∈ ms, threadKey m = k ∧ m.channel = c)
    (hroot : ∀ k c ms, oracle k c = FetchOutcome.ok ms → ms ≠ [] →
      ∃ m0 ∈ ms, m0.ts = k)
    (k : String) :
    ∀ m ∈ finalUniqueMessages oracle msgs, ∀ m' ∈ finalUniqueMessages oracle msgs,
      threadKey m = k → threadKey m' = k → m.channel = m'.channel := by
  -- a fetched message with thread key `k` pins down the unique planned fetch
  -- entry for `k` and lies in its channel
  have hF : ∀ x ∈ fetchedThreads oracle msgs, threadKey x = k →
      ∃ e ∈ collectThreadKeys (uniqueByPermalink msgs),
        ∃ ms, oracle e.1 e.2 = FetchOutcome.ok ms ∧ x ∈ ms
          ∧ e.1 = k ∧ x.channel = e.2 := by
    intro x hx hxk
    rcases mem_fetchedThreads.mp hx with ⟨e, he, ms, hms, hxm⟩
    have hx2 := hkey e.1 e.2 ms hms x hxm
    exact ⟨e, he, ms, hms, hxm, by rw [← hxk, hx2.1], hx2.2⟩
  have hKuniq : ∀ e ∈ collectThreadKeys (uniqueByPermalink msgs),
      ∀ e' ∈ collectThreadKeys (uniqueByPermalink msgs), e.1 = e'.1 → e = e' :=
    List.inj_on_of_nodup_map (nodup_keys_jsDedupBy Prod.fst _)
  have hFF : ∀ x ∈ fetchedThreads oracle msgs, ∀ y ∈ fetchedThreads oracle msgs,
      threadKey x = k → threadKey y = k → x.channel = y.channel := by
    intro x hx y hy hxk hyk
    rcases hF x hx hxk with ⟨e, he, ms, hms, hxm, he1, hxc⟩
    rcases hF y hy hyk with ⟨e', he', ms', hms', hym, he1', hyc⟩
    have : e = e' := hKuniq e he e' he' (by rw [he1, he1'])
    rw [hxc, hyc, this]
  intro m hm m' hm' hmk hm'k
  have hmA := jsDedupBy_subset RawMatch.ts _ m hm
  have hm'A := jsDedupBy_subset RawMatch.ts _ m' hm'
  by_cases hFwit : ∃ y ∈ fetchedThreads oracle msgs, threadKey y = k
  · -- some fetched message bears key `k`: both survivors are fetched messages
    have hintoF : ∀ x ∈ finalUniqueMessages oracle msgs,
        x ∈ standaloneMessages msgs ++ fetchedThreads oracle msgs →
        threadKey x = k → x ∈ fetchedThreads oracle msgs := by
      intro x hxD hxA hxk
      rcases List.mem_append.mp hxA with hxS | hxF
      · rcases hFwit with ⟨y, hyF, hyk⟩
        rcases hF y hyF hyk with ⟨e, he, ms, hms, hym, he1, _⟩
        have hne : ms ≠ [] := by
          intro hnil
          rw [hnil] at hym
          cases hym
        rcases hroot e.1 e.2 ms hms hne with ⟨m0, hm0, hm0ts⟩
        have hm0F : m0 ∈ fetchedThreads oracle msgs :=
          mem_fetchedThreads.mpr ⟨e, he, ms, hms, hm0⟩
        have hxts : x.ts = k := by rw [← standalone_threadKey hxS]; exact hxk
        exact jsDedupBy_mem_right RawMatch.ts _ _ x hxD
          ⟨m0, hm0F, by rw [hm0ts, he1, hxts]⟩
      · exact hxF
    exact hFF m (hintoF m hm hmA hmk) m' (hintoF m' hm' hm'A hm'k) hmk hm'k
  · -- no fetched message bears key `k`: both survivors are the same
    -- standalone message
    have hmts : m.ts = k := by
      rcases List.mem_append.mp hmA with hS | hF
      · rw [← standalone_threadKey hS]; exact hmk
      · exact absurd ⟨m, hF, hmk⟩ hFwit
    have hm'ts : m'.ts = k := by
      rcases List.mem_append.mp hm'A with hS | hF
      · rw [← standalone_threadKey hS]; exact hm'k
      · exact absurd ⟨m', hF, hm'k⟩ hFwit
    have : m = m' := jsDedupBy_key_inj RawMatch.ts _ m m' hm hm' (by rw [hmts, hm'ts])
    rw [this]

/-- **C5**: under the upstream thread-fetch contract — a successful fetch for
`(k, c)` returns only messages of thread `k` lying in channel `c`, and a
non-empty fetch result contains the thread's root message (whose `ts` is the
thread key) — every conversation in a successfully produced set has replies
that exclude its root, all members (root and replies) share the root's thread
key, and all members lie in the root's channel. -/
theorem claim_C5 (oracle : String → String → FetchOutcome) (msgs : List RawMatch)
    (convs : List Conversation)
    (hkey : ∀ k c ms, oracle k c = FetchOutcome.ok ms →
      ∀ m ∈ ms, threadKey m = k ∧ m.channel = c)
    (hroot : ∀ k c ms, oracle k c = FetchOutcome.ok ms → ms ≠ [] →
      ∃ m0 ∈ ms, m0.ts = k)
    (h : reconstruct oracle msgs = Except.ok convs) :
    ∀ conv ∈ convs,
      conv.root ∉ conv.replies
      ∧ (∀ m ∈ conv.replies, threadKey m = threadKey conv.root)
      ∧ (∀ m ∈ conv.replies, m.channel = conv.root.channel) := by
  have hc := reconstruct_ok h
  subst hc
  intro conv hconv
  rcases mem_conversationsOf.mp hconv with ⟨g, hg, hcv⟩
  have hsort := toConversation_eq hcv
  have hperm : List.Perm (conv.root :: conv.replies) g.2 := hsort ▸ sortByTs_perm g.2
  have hfilter := (groupByKey_spec threadKey (finalUniqueMessages oracle msgs)).1 g hg
  have hmemD : ∀ m ∈ g.2, m ∈ finalUniqueMessages oracle msgs ∧ threadKey m = g.1 := by
    intro m hm
    rw [hfilter] at hm
    rcases List.mem_filter.mp hm with ⟨hmD, hk⟩
    exact ⟨hmD, of_decide_eq_true hk⟩
  have hnodupg : g.2.Nodup := by
    rw [hfilter]
    exact (nodup_jsDedupBy _ _).filter _
  have hnodup : (conv.root :: conv.replies).Nodup := hperm.nodup_iff.mpr hnodupg
  have hmem : ∀ m ∈ conv.root :: conv.replies,
      m ∈ finalUniqueMessages oracle msgs ∧ threadKey m = g.1 :=
    fun m hm => hmemD m (hperm.mem_iff.mp hm)
  have hrootmem := hmem conv.root (by simp)
  refine ⟨(List.nodup_cons.mp hnodup).1, ?_, ?_⟩
  · intro m hm
    have := hmem m (by simp [hm])
    rw [this.2, hrootmem.2]
  · intro m hm
    have hmm := hmem m (by simp [hm])
    exact finalUnique_channel_eq oracle msgs hkey hroot g.1
      m hmm.1 conv.root hrootmem.1 hmm.2 hrootmem.2

/-- Witness for C5 at a concrete two-thread reconstruction whose oracle
satisfies the upstream contract. -/
theorem claim_C5_witness :
    reconstruct oracle2W [mA, mB] = Except.ok [⟨pA1, [pR1]⟩, ⟨pB2, [pR2]⟩]
    ∧ ∀ conv ∈ [Conversation.mk pA1 [pR1], Conversation.mk pB2 [pR2]],
        conv.root ∉ conv.replies
        ∧ (∀ m ∈ conv.replies, threadKey m = threadKey conv.root)
        ∧ (∀ m ∈ conv.replies, m.channel = conv.root.channel) := by
  refine ⟨rfl, claim_C5 oracle2W [mA, mB] _ ?_ ?_ rfl⟩
  · intro k c ms h
    unfold oracle2W at h
    by_cases hc : c = "C"
    · rw [if_pos hc] at h
      by_cases hk1 : k = "1.0"
      · rw [if_pos hk1] at h
        injection h with h
        subst h hc hk1
        decide
      · rw [if_neg hk1] at h
        by_cases hk2 : k = "2.0"
        · rw [if_pos hk2] at h
          injection h with h
          subst h hc hk2
          decide
        · rw [if_neg hk2] at h
          cases h
    · rw [if_neg hc] at h
      cases h
  · intro k c ms h hne
    unfold oracle2W at h
    by_cases hc : c = "C"
    · rw [if_pos hc] at h
      by_cases hk1 : k = "1.0"
      · rw [if_pos hk1] at h
        injection h with h
        subst h hk1
        exact ⟨pA1, by decide, by decide⟩
      · rw [if_neg hk1] at h
        by_cases hk2 : k = "2.0"
        · rw [if_pos hk2] at h
          injection h with h
          subst h hk2
          exact ⟨pB2, by decide, by decide⟩
        · rw [if_neg hk2] at h
          cases h
    · rw [if_neg hc] at h
      cases h

end SlackPast
